import Mathlib

/-!
Verification of the gif2esp image pipeline against its specification.

The development shallowly embeds the four core components of the
repository (frame compositor, resampler, quantizer/packer, RLE codec)
as executable Lean definitions and proves or refutes the specified
properties about them.

Conventions used throughout:
* JavaScript typed arrays of bytes become `List Nat`.
* JavaScript floating point numbers become exact rationals (`ℚ`);
  the pipeline only adds, subtracts, multiplies, divides and floors,
  so the rational model is the exact-arithmetic reading of the code.
* Mutation becomes explicit state passing (folds over index ranges).
* The HTML canvas operations invoked by the compositor
  (`putImageData`, `drawImage`, `clearRect`, `getImageData`) are
  modelled with their standard semantics; in particular `drawImage`
  composites with the source-over operator.
-/

namespace Gif2Esp

/-! ## RLE codec

Embedding of `compressRLE` (src/unnamed/part_000, lines 343-391) and of
the decoder emitted by `generateHeaderFile` (the C routine
`_unpack` in lines 437-463, which is also the decoder contract of
spec section 4.4).
-/

/-- Length of the run of values equal to `v` at the head of `l`
(the inner `while` of `compressRLE` counts `countRun v xs + 1` for a
list `v :: xs` before capping at 130). -/
def countRun (v : Nat) : List Nat → Nat
  | [] => 0
  | x :: xs => if x = v then countRun v xs + 1 else 0

/-- Literal-scan length of `compressRLE`: starting from the head of `l`,
count bytes (capped by `cap`, the code uses 128) until a run of three
equal bytes starts; the three-byte lookahead is only performed while at
least three bytes remain, exactly as the guard
`i + litLen + 2 < data.length` does in the source. -/
def litScan : Nat → List Nat → Nat
  | 0, _ => 0
  | _, [] => 0
  | cap + 1, x :: y :: z :: rest =>
    if x = y ∧ y = z then 0 else litScan cap (y :: z :: rest) + 1
  | cap + 1, _ :: rest => litScan cap rest + 1

/-- The RLE (PackBits variant) encoder `compressRLE`.
At each position it measures the run of equal bytes capped at 130;
a run of length at least 3 becomes a repeat record
`[128 + (runLen - 3), value]`, otherwise a literal record
`[litLen - 1, bytes...]` is emitted, the literal scan stopping at 128
bytes or at the start of a run of three equal bytes.  The `litScan = 0`
branch mirrors the defensive `break` of the source (it is provably
unreachable, see `litScan_pos`). -/
def compressRLE : List Nat → List Nat
  | [] => []
  | x :: xs =>
    let r := min (countRun x xs + 1) 130
    if hr : 3 ≤ r then
      (128 + (r - 3)) :: x :: compressRLE ((x :: xs).drop r)
    else
      let L := litScan 128 (x :: xs)
      if hL : L = 0 then []
      else (L - 1) :: ((x :: xs).take L ++ compressRLE ((x :: xs).drop L))
  termination_by l => l.length
  decreasing_by
  · simp only [List.length_drop, List.length_cons]
    omega
  · have := Nat.pos_of_ne_zero hL
    simp only [List.length_drop, List.length_cons]
    omega

/-- The RLE decoder contract (the generated C routine `_unpack`):
read a header byte; a header below 128 copies `header + 1` literal
bytes, a header of at least 128 repeats the next byte
`(header - 128) + 3` times; decoding stops once `bufferLen` output
bytes have been produced.  In the C routine the stream is only
consumed while output space remains, hence the `min` with the space
left; a stream that ends before the buffer is full is undefined
behaviour in C (reads past the end of `val`) and is modelled here by
stopping. -/
def rleDecode : List Nat → Nat → List Nat
  | _, 0 => []
  | [], _ + 1 => []
  | h :: rest, n + 1 =>
    if h < 128 then
      let cnt := min (h + 1) (n + 1)
      rest.take cnt ++ rleDecode (rest.drop cnt) (n + 1 - cnt)
    else
      match rest with
      | [] => []
      | v :: rest2 =>
        let cnt := min (h - 128 + 3) (n + 1)
        List.replicate cnt v ++ rleDecode rest2 (n + 1 - cnt)
  termination_by l _ => l.length
  decreasing_by
  · simp only [List.length_drop, List.length_cons]
    omega
  · simp only [List.length_cons]
    omega

/-! ## Quantizer, resampler and packer

Embedding of `processFrame` (src/unnamed/part_000, lines 155-334).
The function is split into its sequential stages: fit-policy scale and
offset derivation, nearest-neighbor sampling loop, grayscale conversion,
threshold or Floyd-Steinberg quantization, and page-addressed packing.
JavaScript floating point arithmetic is modelled by exact rationals.
-/

/-- RGBA bitmap as handed around by the pipeline (the `ImageData` shape:
a flat byte list in RGBA order together with its dimensions). -/
structure ImageData where
  width : Nat
  height : Nat
  data : List Nat
  deriving DecidableEq

/-- The three fit policies of `ProcessingOptions.fit`. -/
inductive Fit where
  | stretch : Fit
  | cover : Fit
  | contain : Fit
  deriving DecidableEq

/-- The `ProcessingOptions` record of the source. -/
structure ProcessingOptions where
  width : Nat
  height : Nat
  threshold : ℚ
  invert : Bool
  dither : Bool
  fit : Fit

/-- Scale and offset parameters of the sampling loop. -/
structure FitParams where
  scaleX : ℚ
  scaleY : ℚ
  offsetX : ℚ
  offsetY : ℚ

/-- Scale/offset derivation of `processFrame` (lines 166-189):
stretch uses the two independent axis scales with zero offset, cover the
maximum of the two scales, contain the minimum, both centered. -/
def fitParams (sw sh W H : Nat) (fit : Fit) : FitParams :=
  let scaleX : ℚ := (W : ℚ) / (sw : ℚ)
  let scaleY : ℚ := (H : ℚ) / (sh : ℚ)
  match fit with
  | Fit.stretch => ⟨scaleX, scaleY, 0, 0⟩
  | Fit.cover =>
    let scale := max scaleX scaleY
    ⟨scale, scale, ((W : ℚ) - (sw : ℚ) * scale) / 2, ((H : ℚ) - (sh : ℚ) * scale) / 2⟩
  | Fit.contain =>
    let scale := min scaleX scaleY
    ⟨scale, scale, ((W : ℚ) - (sw : ℚ) * scale) / 2, ((H : ℚ) - (sh : ℚ) * scale) / 2⟩

/-- Body of the sampling loop of `processFrame` (lines 192-223): map the
target pixel back to source space, floor, and either copy the source
texel or emit opaque black padding. -/
def samplePixel (src : ImageData) (W H : Nat) (fit : Fit) (x y : Nat) :
    Nat × Nat × Nat × Nat :=
  let p := fitParams src.width src.height W H fit
  let srcX : ℤ := ⌊((x : ℚ) - p.offsetX) / p.scaleX⌋
  let srcY : ℤ := ⌊((y : ℚ) - p.offsetY) / p.scaleY⌋
  if 0 ≤ srcX ∧ srcX < (src.width : ℤ) ∧ 0 ≤ srcY ∧ srcY < (src.height : ℤ) then
    let srcIdx := (srcY.toNat * src.width + srcX.toNat) * 4
    (src.data.getD srcIdx 0, src.data.getD (srcIdx + 1) 0,
      src.data.getD (srcIdx + 2) 0, src.data.getD (srcIdx + 3) 0)
  else
    (0, 0, 0, 255)

/-- The sampling loop of `processFrame`: builds `targetData`, the flat
RGBA byte list of the resampled W by H bitmap, pixel index
`i = y * W + x` in raster order exactly as the nested loop writes
`targetData[(y * width + x) * 4 .. + 3]`. -/
def resample (src : ImageData) (W H : Nat) (fit : Fit) : ImageData :=
  { width := W
    height := H
    data := (List.range (W * H)).flatMap fun i =>
      let q := samplePixel src W H fit (i % W) (i / W)
      [q.1, q.2.1, q.2.2.1, q.2.2.2] }

/-- Reads the RGBA quadruple of pixel `(x, y)` from a flat bitmap. -/
def pixelAt (img : ImageData) (x y : Nat) : Nat × Nat × Nat × Nat :=
  let i := (y * img.width + x) * 4
  (img.data.getD i 0, img.data.getD (i + 1) 0,
    img.data.getD (i + 2) 0, img.data.getD (i + 3) 0)

/-- Grayscale conversion of `processFrame` (lines 243-249): the BT.601
luminance of every pixel of the flat RGBA list, in raster order. -/
def grayscale (img : ImageData) : List ℚ :=
  (List.range (img.width * img.height)).map fun i =>
    0.299 * ((img.data.getD (i * 4) 0 : Nat) : ℚ) +
      0.587 * ((img.data.getD (i * 4 + 1) 0 : Nat) : ℚ) +
      0.114 * ((img.data.getD (i * 4 + 2) 0 : Nat) : ℚ)

/-- Threshold quantization without dithering (lines 303-309): per pixel,
quantize against the threshold and invert the quantized value
afterwards when requested. -/
def thresholdVals (invert : Bool) (threshold : ℚ) (gray : List ℚ) : List Nat :=
  gray.map fun g =>
    let newPixel : Nat := if g < threshold then 0 else 255
    if invert then 255 - newPixel else newPixel

/-- Floyd-Steinberg error diffusion of one quantization error `e` from
pixel `(x, y)` into the gray buffer (lines 273-282): east 7/16,
southwest 3/16, south 5/16, southeast 1/16, skipping neighbors outside
bounds. -/
def fsDiffuse (W H : Nat) (buf : List ℚ) (y x : Nat) (e : ℚ) : List ℚ :=
  let b1 := if x + 1 < W then
      buf.set (y * W + (x + 1)) (buf.getD (y * W + (x + 1)) 0 + e * (7 / 16))
    else buf
  if y + 1 < H then
    let b2 := if 0 < x then
        b1.set ((y + 1) * W + (x - 1)) (b1.getD ((y + 1) * W + (x - 1)) 0 + e * (3 / 16))
      else b1
    let b3 := b2.set ((y + 1) * W + x) (b2.getD ((y + 1) * W + x) 0 + e * (5 / 16))
    if x + 1 < W then
      b3.set ((y + 1) * W + (x + 1)) (b3.getD ((y + 1) * W + (x + 1)) 0 + e * (1 / 16))
    else b3
  else b1

/-- The Floyd-Steinberg dithering loop (lines 266-300) over a gray
buffer, raster order; returns the quantized intensity (0 or 255) of
every pixel.  Pixel `(x, y)` has buffer index `i = y * W + x`. -/
def fsLoop (W H : Nat) (threshold : ℚ) (buf0 : List ℚ) : List Nat :=
  ((List.range (W * H)).foldl
    (fun st i =>
      let oldVal := st.1.getD i 0
      let newVal : ℚ := if oldVal < threshold then 0 else 255
      (fsDiffuse W H st.1 (i / W) (i % W) (oldVal - newVal),
        st.2 ++ [if oldVal < threshold then (0 : Nat) else 255]))
    (buf0, ([] : List Nat))).2

/-- Quantization dispatch of `processFrame` (lines 252-328): with
dithering the luminance is negated before the Floyd-Steinberg loop when
invert is requested; without dithering the per-pixel threshold result is
inverted after quantization. -/
def quantizeVals (W H : Nat) (threshold : ℚ) (invert dither : Bool)
    (gray : List ℚ) : List Nat :=
  if dither then
    fsLoop W H threshold (if invert then gray.map (fun g => 255 - g) else gray)
  else
    thresholdVals invert threshold gray

/-- Length of the returned packed buffer: the source allocates
`new Uint8Array((width * height) / 8)` (line 235); the JavaScript
typed-array length conversion truncates the quotient, which is Nat
division here. -/
def ssd1306Len (W H : Nat) : Nat := W * H / 8

/-- Length of the unused `monoPixels` allocation of line 227, which uses
`Math.ceil((width * height) / 8)`. -/
def monoPixelsLen (W H : Nat) : Nat := (W * H + 7) / 8

/-- Page-addressed packing of `processFrame` (lines 291-298 and
317-325): a quantized value above 128 at pixel `(x, y)` sets bit
`y % 8` of byte `(y / 8) * W + x`, guarded by the defensive
`byteIdx < ssd1306Buffer.length` check; the buffer starts as all
zeros. -/
def packStep (W : Nat) (vals : List Nat) (buf : List Nat) (i : Nat) : List Nat :=
  let v := vals.getD i 0
  if 128 < v then
    let byteIdx := (i / W / 8) * W + i % W
    if byteIdx < buf.length then
      buf.set byteIdx (buf.getD byteIdx 0 ||| (1 <<< ((i / W) % 8)))
    else buf
  else buf

/-- The packing loop itself: fold `packStep` over all pixel indices in
raster order, starting from the all-zero buffer of truncated length. -/
def packSSD1306 (W H : Nat) (vals : List Nat) : List Nat :=
  (List.range (W * H)).foldl (packStep W vals) (List.replicate (ssd1306Len W H) 0)

/-- The packed-pixels side of `processFrame`: resample, grayscale,
quantize, pack.  The preview bitmap the source also returns is a derived
artifact not needed by any verified property and is omitted. -/
def processFramePixels (frame : ImageData) (o : ProcessingOptions) : List Nat :=
  let target := resample frame o.width o.height o.fit
  let gray := grayscale target
  let vals := quantizeVals o.width o.height o.threshold o.invert o.dither gray
  packSSD1306 o.width o.height vals

/-! ## Frame compositor

Embedding of `extractComposedFrames` (src/unnamed/part_000, lines
82-148).  Canvases are pixel functions; the canvas operations the code
invokes (`drawImage`, `clearRect`, `getImageData`, `putImageData`) are
modelled with their standard HTML canvas semantics: `drawImage`
composites with the source-over operator, `clearRect` resets a
rectangle to fully transparent black, snapshots are value copies.
-/

/-- One RGBA pixel value (bytes 0..255 as stored by the canvas). -/
structure RGBA where
  r : Nat
  g : Nat
  b : Nat
  a : Nat
  deriving DecidableEq

/-- A full-size canvas, as a pixel function. -/
def Canvas : Type := Nat → Nat → RGBA

/-- Patch rectangle (the `dims` of a decoded GIF frame). -/
structure Rect where
  left : Nat
  top : Nat
  width : Nat
  height : Nat

/-- A raw decoded GIF frame record: patch rectangle, patch pixels and
disposal flag, as consumed by `extractComposedFrames`. -/
structure RawFrame where
  dims : Rect
  patch : Nat → Nat → RGBA
  disposalType : Nat

/-- Source-over compositing of one pixel, the operator `drawImage`
applies: with alphas normalized to 0..1, the output alpha is
`as + ad * (1 - as)` and each un-premultiplied output channel is
`(cs * as + cd * ad * (1 - as)) / ao`, rounded back to bytes. -/
def sourceOver (s d : RGBA) : RGBA :=
  let sa : ℚ := (s.a : ℚ) / 255
  let da : ℚ := (d.a : ℚ) / 255
  let ao : ℚ := sa + da * (1 - sa)
  if ao = 0 then ⟨0, 0, 0, 0⟩
  else
    ⟨(round (((s.r : ℚ) * sa + (d.r : ℚ) * da * (1 - sa)) / ao)).toNat,
      (round (((s.g : ℚ) * sa + (d.g : ℚ) * da * (1 - sa)) / ao)).toNat,
      (round (((s.b : ℚ) * sa + (d.b : ℚ) * da * (1 - sa)) / ao)).toNat,
      (round (ao * 255)).toNat⟩

/-- A freshly created canvas: every pixel fully transparent black. -/
def initialCanvas : Canvas := fun _ _ => ⟨0, 0, 0, 0⟩

/-- Effect of `ctx.drawImage(patchCanvas, left, top)` on the main
canvas: source-over composite the patch pixels inside the destination
rectangle, leave every other pixel unchanged. -/
def drawImagePatch (c : Canvas) (rc : Rect) (p : Nat → Nat → RGBA) : Canvas :=
  fun x y =>
    if rc.left ≤ x ∧ x < rc.left + rc.width ∧ rc.top ≤ y ∧ y < rc.top + rc.height then
      sourceOver (p (x - rc.left) (y - rc.top)) (c x y)
    else c x y

/-- Effect of `ctx.clearRect`: the rectangle becomes fully transparent
black. -/
def clearRect (c : Canvas) (rc : Rect) : Canvas :=
  fun x y =>
    if rc.left ≤ x ∧ x < rc.left + rc.width ∧ rc.top ≤ y ∧ y < rc.top + rc.height then
      ⟨0, 0, 0, 0⟩
    else c x y

/-- One iteration of the `rawFrames.forEach` loop of
`extractComposedFrames`: snapshot for disposal 3 before drawing, draw
the patch, emit the visible canvas, then apply disposal (2 clears the
patch rectangle, 3 restores the snapshot).  Returns the canvas for the
next frame and the emitted snapshot. -/
def stepFrame (c : Canvas) (f : RawFrame) : Canvas × Canvas :=
  let backup : Option Canvas := if f.disposalType = 3 then some c else none
  let drawn := drawImagePatch c f.dims f.patch
  let next :=
    if f.disposalType = 2 then clearRect drawn f.dims
    else
      match backup with
      | some b => if f.disposalType = 3 then b else drawn
      | none => drawn
  (next, drawn)

/-- The compositor `extractComposedFrames`: fold the frame records over
the running canvas, collecting the emitted snapshots. -/
def extractComposedFrames (raws : List RawFrame) : List Canvas :=
  (raws.foldl
    (fun st f =>
      let s := stepFrame st.1 f
      (s.1, st.2 ++ [s.2]))
    (initialCanvas, ([] : List Canvas))).2

/-! ## Concrete inputs used by counterexamples and witnesses -/

/-- Opaque red pixel. -/
def redOpaque : RGBA := ⟨255, 0, 0, 255⟩

/-- A patch texel with zero alpha (GIF transparency), nonzero color. -/
def clearTexel : RGBA := ⟨10, 20, 30, 0⟩

/-- The 1 by 1 rectangle at the origin. -/
def rect1x1 : Rect := ⟨0, 0, 1, 1⟩

/-- Frame drawing an opaque red 1 by 1 patch, disposal None. -/
def frameRed : RawFrame := ⟨rect1x1, fun _ _ => redOpaque, 1⟩

/-- Frame whose 1 by 1 patch pixel is fully transparent, disposal None. -/
def frameClear : RawFrame := ⟨rect1x1, fun _ _ => clearTexel, 1⟩

/-- Frame drawing an opaque red 1 by 1 patch with disposal
RestorePrevious. -/
def frameRedRestorePrev : RawFrame := ⟨rect1x1, fun _ _ => redOpaque, 3⟩

/-- A 1 by 1 all-black opaque source bitmap. -/
def blackFrame1x1 : ImageData := ⟨1, 1, [0, 0, 0, 255]⟩

/-- Options requesting a 3 by 3 target (9 pixels, not a multiple of 8),
plain threshold quantization. -/
def opts3x3 : ProcessingOptions := ⟨3, 3, 128, false, false, Fit.stretch⟩

/-- Quantized 16 by 16 frame with the single pixel (3, 10) lit. -/
def vals16 : List Nat := (List.replicate 256 0).set (10 * 16 + 3) 255

/-- Quantized 1 by 9 column with the single pixel (0, 8) lit. -/
def vals1x9 : List Nat := (List.replicate 9 0).set 8 255

/-- Two-pixel gray row used to separate invert-before-dither from
invert-after-dither. -/
def grayPair : List ℚ := [150, 90]

/-! ## Helper lemmas for the RLE codec -/

theorem countRun_le (v : Nat) (l : List Nat) : countRun v l ≤ l.length := by
  induction l with
  | nil => simp [countRun]
  | cons x xs ih =>
    by_cases h : x = v
    · simp only [countRun, if_pos h, List.length_cons]
      omega
    · simp [countRun, h]

theorem countRun_cons_self (v : Nat) (xs : List Nat) :
    countRun v (v :: xs) = countRun v xs + 1 := by
  simp [countRun]

theorem take_eq_replicate_of_le_countRun (v : Nat) :
    ∀ (r : Nat) (l : List Nat), r ≤ countRun v l → l.take r = List.replicate r v := by
  intro r
  induction r with
  | zero => intro l _; simp
  | succ r ih =>
    intro l hr
    match l with
    | [] => simp [countRun] at hr
    | x :: xs =>
      by_cases h : x = v
      · subst h
        rw [countRun_cons_self] at hr
        simp only [List.take_succ_cons, List.replicate_succ]
        rw [ih xs (by omega)]
      · simp [countRun, h] at hr

theorem litScan_le_cap : ∀ (cap : Nat) (l : List Nat), litScan cap l ≤ cap := by
  intro cap
  induction cap with
  | zero => intro l; simp [litScan]
  | succ cap ih =>
    intro l
    match l with
    | [] => simp [litScan]
    | [x] =>
      simp only [litScan]
      have := ih []
      omega
    | [x, y] =>
      simp only [litScan]
      have := ih [y]
      omega
    | x :: y :: z :: rest =>
      simp only [litScan]
      split
      · omega
      · have := ih (y :: z :: rest)
        omega

theorem litScan_le_length : ∀ (cap : Nat) (l : List Nat), litScan cap l ≤ l.length := by
  intro cap
  induction cap with
  | zero => intro l; simp [litScan]
  | succ cap ih =>
    intro l
    match l with
    | [] => simp [litScan]
    | [x] =>
      simp only [litScan]
      have := ih []
      simp at this
      simp [this]
    | [x, y] =>
      simp only [litScan]
      have := ih [y]
      simp only [List.length_cons, List.length_nil] at this ⊢
      omega
    | x :: y :: z :: rest =>
      simp only [litScan]
      split
      · omega
      · have := ih (y :: z :: rest)
        simp only [List.length_cons] at this ⊢
        omega

theorem litScan_pos (cap : Nat) (x : Nat) (xs : List Nat) (h : countRun x xs ≤ 1) :
    1 ≤ litScan (cap + 1) (x :: xs) := by
  match xs with
  | [] => simp [litScan]
  | [y] => simp [litScan]
  | y :: z :: rest =>
    simp only [litScan]
    split
    · rename_i hyz
      obtain ⟨hxy, hyz⟩ := hyz
      subst hxy; subst hyz
      simp [countRun] at h
    · omega

theorem compressRLE_repeat_eq (x : Nat) (xs : List Nat)
    (h3 : 3 ≤ min (countRun x xs + 1) 130) :
    compressRLE (x :: xs) =
      (128 + (min (countRun x xs + 1) 130 - 3)) :: x ::
        compressRLE ((x :: xs).drop (min (countRun x xs + 1) 130)) := by
  rw [compressRLE]
  simp only [dif_pos h3]

theorem compressRLE_literal_eq (x : Nat) (xs : List Nat)
    (h3 : ¬ 3 ≤ min (countRun x xs + 1) 130)
    (hL : litScan 128 (x :: xs) ≠ 0) :
    compressRLE (x :: xs) =
      (litScan 128 (x :: xs) - 1) ::
        ((x :: xs).take (litScan 128 (x :: xs)) ++
          compressRLE ((x :: xs).drop (litScan 128 (x :: xs)))) := by
  rw [compressRLE]
  simp only [dif_neg h3]
  rw [dif_neg hL]

theorem rleDecode_literal_eq (h : Nat) (rest : List Nat) (n : Nat) (hh : h < 128) :
    rleDecode (h :: rest) (n + 1) =
      rest.take (min (h + 1) (n + 1)) ++
        rleDecode (rest.drop (min (h + 1) (n + 1))) (n + 1 - min (h + 1) (n + 1)) := by
  rw [rleDecode.eq_def]
  simp [hh]

theorem rleDecode_repeat_eq (h v : Nat) (rest2 : List Nat) (n : Nat) (hh : ¬ h < 128) :
    rleDecode (h :: v :: rest2) (n + 1) =
      List.replicate (min (h - 128 + 3) (n + 1)) v ++
        rleDecode rest2 (n + 1 - min (h - 128 + 3) (n + 1)) := by
  rw [rleDecode.eq_def]
  simp [hh]

theorem rleDecode_compressRLE_aux :
    ∀ (N : Nat) (l : List Nat), l.length ≤ N →
      rleDecode (compressRLE l) l.length = l := by
  intro N
  induction N with
  | zero =>
    intro l hl
    have : l = [] := List.eq_nil_of_length_eq_zero (by omega)
    subst this
    simp [compressRLE, rleDecode]
  | succ N ih =>
    intro l hl
    match l with
    | [] => simp [compressRLE, rleDecode]
    | x :: xs =>
      have hlen : (x :: xs).length = xs.length + 1 := rfl
      rw [hlen] at hl ⊢
      have hcle : countRun x xs ≤ xs.length := countRun_le x xs
      by_cases h3 : 3 ≤ min (countRun x xs + 1) 130
      · -- repeat-record branch
        have hr3 : 3 ≤ min (countRun x xs + 1) 130 := h3
        have hrub : min (countRun x xs + 1) 130 ≤ countRun x xs + 1 :=
          Nat.min_le_left _ _
        have hrlen : min (countRun x xs + 1) 130 ≤ xs.length + 1 := by omega
        rw [compressRLE_repeat_eq x xs h3]
        rw [rleDecode_repeat_eq _ _ _ _ (by omega)]
        have hcnt : min (128 + (min (countRun x xs + 1) 130 - 3) - 128 + 3)
            (xs.length + 1) = min (countRun x xs + 1) 130 := by
          omega
        rw [hcnt]
        have hdl : ((x :: xs).drop (min (countRun x xs + 1) 130)).length =
            xs.length + 1 - min (countRun x xs + 1) 130 := by
          rw [List.length_drop, hlen]
        rw [← hdl]
        rw [ih _ (by rw [hdl]; omega)]
        have htake : (x :: xs).take (min (countRun x xs + 1) 130) =
            List.replicate (min (countRun x xs + 1) 130) x := by
          apply take_eq_replicate_of_le_countRun
          rw [countRun_cons_self]
          omega
        rw [← htake, List.take_append_drop]
      · -- literal-record branch
        have hC : countRun x xs ≤ 1 := by
          by_contra hc
          push_neg at hc
          exact h3 (le_min (by omega) (by omega))
        have hL1 : 1 ≤ litScan 128 (x :: xs) := litScan_pos 127 x xs hC
        have hL128 : litScan 128 (x :: xs) ≤ 128 := litScan_le_cap 128 (x :: xs)
        have hLlen : litScan 128 (x :: xs) ≤ xs.length + 1 := by
          have := litScan_le_length 128 (x :: xs)
          rwa [hlen] at this
        rw [compressRLE_literal_eq x xs h3 (by omega)]
        rw [rleDecode_literal_eq _ _ _ (by omega)]
        have hcnt : min (litScan 128 (x :: xs) - 1 + 1) (xs.length + 1) =
            litScan 128 (x :: xs) := by omega
        rw [hcnt]
        have htlen : ((x :: xs).take (litScan 128 (x :: xs))).length =
            litScan 128 (x :: xs) := by
          rw [List.length_take, hlen]
          omega
        rw [List.take_left' htlen, List.drop_left' htlen]
        have hdl : ((x :: xs).drop (litScan 128 (x :: xs))).length =
            xs.length + 1 - litScan 128 (x :: xs) := by
          rw [List.length_drop, hlen]
        rw [← hdl]
        rw [ih _ (by rw [hdl]; omega)]
        exact List.take_append_drop _ _

theorem countRun_replicate_append (v : Nat) :
    ∀ (k : Nat) (xs : List Nat),
      countRun v (List.replicate k v ++ xs) = k + countRun v xs := by
  intro k
  induction k with
  | zero => intro xs; simp
  | succ k ih =>
    intro xs
    simp only [List.replicate_succ, List.cons_append]
    rw [countRun_cons_self, ih]
    omega

theorem countRun_eq_zero_of_head_ne (v : Nat) (xs : List Nat)
    (h : xs.head? ≠ some v) : countRun v xs = 0 := by
  match xs with
  | [] => simp [countRun]
  | w :: rest =>
    have hw : w ≠ v := by
      intro he
      exact h (by rw [he]; rfl)
    simp [countRun, hw]

theorem compressRLE_nil : compressRLE [] = [] := by
  rw [compressRLE]

/-- C1: for every byte sequence, decoding the RLE encoder output with the
declared output length equal to the input length reproduces the input
exactly: `rleDecode (compressRLE data) data.length = data`. -/
theorem rle_roundtrip (data : List Nat) :
    rleDecode (compressRLE data) data.length = data :=
  rleDecode_compressRLE_aux data.length data le_rfl

/-- C7: the RLE encoder emits a two-byte repeat record
`[128 + (runLen - 3), value]` for every maximal run of length 3..130 and
then continues after the run; on the concrete input
`[5,5,5,5,5,9,9,1,2,3]` it produces `[130,5]` for the five 5s followed by
one literal record `[4, 9,9,1,2,3]` (the run of two 9s stays literal);
a run longer than the 130 cap is split, e.g. 131 equal bytes become a
full repeat record plus a one-byte literal record. -/
theorem compressRLE_repeat_record_spec :
    (∀ (v n : Nat) (xs : List Nat), 3 ≤ n → n ≤ 130 →
        xs.head? ≠ some v →
        compressRLE (List.replicate n v ++ xs) =
          (128 + (n - 3)) :: v :: compressRLE xs)
    ∧ compressRLE [5, 5, 5, 5, 5, 9, 9, 1, 2, 3] = [130, 5, 4, 9, 9, 1, 2, 3]
    ∧ compressRLE (List.replicate 131 7) = [255, 7, 0, 7] := by
  have main : ∀ (v n : Nat) (xs : List Nat), 3 ≤ n → n ≤ 130 →
      xs.head? ≠ some v →
      compressRLE (List.replicate n v ++ xs) =
        (128 + (n - 3)) :: v :: compressRLE xs := by
    intro v n xs h3 h130 hhead
    have hn1 : n = (n - 1) + 1 := by omega
    have hshape : List.replicate n v ++ xs = v :: (List.replicate (n - 1) v ++ xs) := by
      conv_lhs => rw [hn1]
      rw [List.replicate_succ, List.cons_append]
    have hcount : countRun v (List.replicate (n - 1) v ++ xs) = n - 1 := by
      rw [countRun_replicate_append, countRun_eq_zero_of_head_ne v xs hhead]
      omega
    have hmin : min (countRun v (List.replicate (n - 1) v ++ xs) + 1) 130 = n := by
      rw [hcount]
      omega
    have hdrop : (List.replicate n v ++ xs).drop n = xs :=
      List.drop_left' (by rw [List.length_replicate])
    rw [hshape, compressRLE_repeat_eq v _ (by rw [hmin]; omega)]
    rw [hmin]
    rw [← hshape, hdrop]
  refine ⟨main, ?_, ?_⟩
  · have e5 : List.replicate 5 5 ++ [9, 9, 1, 2, 3] = [5, 5, 5, 5, 5, 9, 9, 1, 2, 3] := by
      decide
    have h1 := main 5 5 [9, 9, 1, 2, 3] (by omega) (by omega) (by decide)
    rw [e5] at h1
    rw [h1]
    rw [compressRLE_literal_eq 9 [9, 1, 2, 3] (by decide) (by decide)]
    rw [show litScan 128 [9, 9, 1, 2, 3] = 5 from by decide]
    simp [compressRLE_nil]
  · have hshape : List.replicate 131 7 = 7 :: List.replicate 130 7 := by
      rw [show (131 : Nat) = 130 + 1 from rfl, List.replicate_succ]
    have hc : countRun 7 (List.replicate 130 7) = 130 := by
      have h0 := countRun_replicate_append 7 130 []
      rw [List.append_nil] at h0
      rw [show countRun 7 ([] : List Nat) = 0 from rfl] at h0
      omega
    have hmin : min (countRun 7 (List.replicate 130 7) + 1) 130 = 130 := by
      rw [hc]
      omega
    have hdrop : (7 :: List.replicate 130 7).drop 130 = [7] := by
      rw [← hshape]
      rw [show (130 : Nat) = 131 - 1 from rfl]
      rw [List.drop_replicate]
      norm_num [List.replicate_one]
    rw [hshape, compressRLE_repeat_eq 7 _ (by rw [hmin]; omega)]
    rw [hmin, hdrop]
    rw [compressRLE_literal_eq 7 [] (by decide) (by decide)]
    rw [show litScan 128 [7] = 1 from by decide]
    simp [compressRLE_nil]

/-- Witness for C7: the run `[9, 9, 9, 9]` followed by a different byte
is emitted as the repeat record `[129, 9]`. -/
theorem compressRLE_repeat_record_spec_witness :
    compressRLE (List.replicate 4 9 ++ [2]) =
      (128 + (4 - 3)) :: 9 :: compressRLE [2] :=
  compressRLE_repeat_record_spec.1 9 4 [2] (by decide) (by decide) (by decide)

/-! ## Helper lemmas for the packer -/

theorem getD_set_self (buf : List Nat) (k v : Nat) (hk : k < buf.length) :
    (buf.set k v).getD k 0 = v := by
  rw [List.getD_eq_getElem?_getD, List.getElem?_set_self hk]
  rfl

theorem getD_set_ne (buf : List Nat) (k j v : Nat) (h : k ≠ j) :
    (buf.set k v).getD j 0 = buf.getD j 0 := by
  rw [List.getD_eq_getElem?_getD, List.getElem?_set_ne h, ← List.getD_eq_getElem?_getD]

theorem getD_replicate_zero (n j : Nat) : (List.replicate n (0 : Nat)).getD j 0 = 0 := by
  rw [List.getD_eq_getElem?_getD]
  rcases Nat.lt_or_ge j n with h | h
  · rw [List.getElem?_replicate]
    simp [h]
  · rw [List.getElem?_eq_none (by simpa using h)]
    rfl

theorem testBit_one_shiftLeft (n m : Nat) :
    (1 <<< n).testBit m = decide (n = m) := by
  rw [Nat.shiftLeft_eq, one_mul, Nat.testBit_two_pow]

theorem packStep_length (W : Nat) (vals buf : List Nat) (i : Nat) :
    (packStep W vals buf i).length = buf.length := by
  unfold packStep
  by_cases hv : 128 < vals.getD i 0
  · simp only [if_pos hv]
    by_cases hidx : (i / W / 8) * W + i % W < buf.length
    · simp only [if_pos hidx, List.length_set]
    · simp only [if_neg hidx]
  · simp only [if_neg hv]

theorem packFold_length (W : Nat) (vals : List Nat) :
    ∀ (l : List Nat) (buf : List Nat),
      (l.foldl (packStep W vals) buf).length = buf.length := by
  intro l
  induction l with
  | nil => intro buf; rfl
  | cons i l ih =>
    intro buf
    rw [List.foldl_cons, ih, packStep_length]

theorem packSSD1306_length (W H : Nat) (vals : List Nat) :
    (packSSD1306 W H vals).length = ssd1306Len W H := by
  unfold packSSD1306
  rw [packFold_length, List.length_replicate]

theorem packStep_testBit (W : Nat) (vals buf : List Nat) (i j b : Nat)
    (hj : j < buf.length) :
    (Nat.testBit ((packStep W vals buf i).getD j 0) b = true ↔
      (Nat.testBit (buf.getD j 0) b = true ∨
        (128 < vals.getD i 0 ∧ (i / W / 8) * W + i % W = j ∧ (i / W) % 8 = b))) := by
  unfold packStep
  by_cases hv : 128 < vals.getD i 0
  · simp only [if_pos hv]
    by_cases hidx : (i / W / 8) * W + i % W < buf.length
    · simp only [if_pos hidx]
      by_cases hij : (i / W / 8) * W + i % W = j
      · rw [hij, getD_set_self _ _ _ (hij ▸ hidx)]
        rw [Nat.testBit_or, testBit_one_shiftLeft]
        by_cases hbb : (i / W) % 8 = b
        · rw [show decide ((i / W) % 8 = b) = true from by simp [hbb], Bool.or_true]
          constructor
          · intro _
            exact Or.inr ⟨hv, rfl, hbb⟩
          · intro _
            rfl
        · rw [show decide ((i / W) % 8 = b) = false from by simp [hbb], Bool.or_false]
          constructor
          · intro h
            exact Or.inl h
          · rintro (h | ⟨_, _, hbe⟩)
            · exact h
            · exact absurd hbe hbb
      · rw [getD_set_ne _ _ _ _ hij]
        constructor
        · intro h
          exact Or.inl h
        · rintro (h | ⟨_, hje, _⟩)
          · exact h
          · exact absurd hje hij
    · simp only [if_neg hidx]
      constructor
      · intro h
        exact Or.inl h
      · rintro (h | ⟨hv2, hje, hbe⟩)
        · exact h
        · exact absurd (hje ▸ hj) hidx
  · simp only [if_neg hv]
    constructor
    · intro h
      exact Or.inl h
    · rintro (h | ⟨hv2, _, _⟩)
      · exact h
      · exact absurd hv2 hv

theorem packFold_testBit (W : Nat) (vals : List Nat) :
    ∀ (l : List Nat) (buf : List Nat) (j b : Nat), j < buf.length →
      (Nat.testBit ((l.foldl (packStep W vals) buf).getD j 0) b = true ↔
        (Nat.testBit (buf.getD j 0) b = true ∨
          ∃ i ∈ l, 128 < vals.getD i 0 ∧ (i / W / 8) * W + i % W = j ∧
            (i / W) % 8 = b)) := by
  intro l
  induction l with
  | nil =>
    intro buf j b hj
    simp
  | cons i l ih =>
    intro buf j b hj
    rw [List.foldl_cons]
    rw [ih (packStep W vals buf i) j b (by rw [packStep_length]; exact hj)]
    rw [packStep_testBit W vals buf i j b hj]
    constructor
    · rintro ((h | hi) | ⟨k, hk, hP⟩)
      · exact Or.inl h
      · exact Or.inr ⟨i, List.mem_cons_self i l, hi⟩
      · exact Or.inr ⟨k, List.mem_cons_of_mem i hk, hP⟩
    · rintro (h | ⟨k, hk, hP⟩)
      · exact Or.inl (Or.inl h)
      · rcases List.mem_cons.mp hk with rfl | hk2
        · exact Or.inl (Or.inr hP)
        · exact Or.inr ⟨k, hk2, hP⟩

/-- C3: the packed output follows the page-addressed vertical-byte
layout.  For every byte index `j` of the packed buffer and bit position
`b < 8`, bit `b` of byte `j` is set if and only if the pixel
`(x, y) = (j % W, 8 * (j / W) + b)` exists (`y < H`) and its quantized
value exceeds 128; equivalently, a lit pixel `(x, y)` sets bit `y % 8`
of byte `(y / 8) * W + x` and every other bit is 0. -/
theorem packSSD1306_layout (W H : Nat) (vals : List Nat) (j b : Nat)
    (hW : 0 < W) (hj : j < ssd1306Len W H) (hb : b < 8) :
    (Nat.testBit ((packSSD1306 W H vals).getD j 0) b = true ↔
      (8 * (j / W) + b < H ∧
        128 < vals.getD ((8 * (j / W) + b) * W + j % W) 0)) := by
  unfold packSSD1306
  rw [packFold_testBit W vals _ _ j b (by rw [List.length_replicate]; exact hj)]
  rw [getD_replicate_zero]
  rw [Nat.zero_testBit]
  constructor
  · rintro (h | ⟨i, hi, hv, hje, hbe⟩)
    · exact absurd h (by simp)
    · rw [List.mem_range] at hi
      have hxW : i % W < W := Nat.mod_lt _ hW
      have hdm : W * (i / W) + i % W = i := Nat.div_add_mod i W
      have hjshape : j = i % W + W * (i / W / 8) := by
        rw [← hje]
        ring
      have hjW : j / W = i / W / 8 := by
        rw [hjshape, Nat.add_mul_div_left _ _ hW, Nat.div_eq_of_lt hxW]
        omega
      have hjM : j % W = i % W := by
        rw [hjshape, Nat.add_mul_mod_self_left, Nat.mod_eq_of_lt hxW]
      have hy : 8 * (j / W) + b = i / W := by
        rw [hjW, ← hbe]
        omega
      have hyH : i / W < H := by
        rw [Nat.div_lt_iff_lt_mul hW]
        rw [Nat.mul_comm]
        exact hi
      refine ⟨by rw [hy]; exact hyH, ?_⟩
      rw [hy, hjM]
      have hidx : i / W * W + i % W = i := by
        rw [Nat.mul_comm]
        exact hdm
      rw [hidx]
      exact hv
  · rintro ⟨hyH, hv⟩
    have hxW : j % W < W := Nat.mod_lt _ hW
    refine Or.inr ⟨(8 * (j / W) + b) * W + j % W, ?_, ?_, ?_, ?_⟩
    · rw [List.mem_range]
      have h1 : (8 * (j / W) + b) * W + j % W < (8 * (j / W) + b + 1) * W := by
        have : (8 * (j / W) + b + 1) * W = (8 * (j / W) + b) * W + W := by ring
        omega
      have h2 : (8 * (j / W) + b + 1) * W ≤ H * W :=
        Nat.mul_le_mul_right W (by omega)
      have : (8 * (j / W) + b) * W + j % W < H * W := by omega
      rw [Nat.mul_comm W H]
      exact this
    · exact hv
    · have hshape : (8 * (j / W) + b) * W + j % W =
          j % W + W * (8 * (j / W) + b) := by ring
      rw [hshape, Nat.add_mul_div_left _ _ hW, Nat.div_eq_of_lt hxW,
        Nat.zero_add, Nat.add_mul_mod_self_left, Nat.mod_eq_of_lt hxW]
      have hq : (8 * (j / W) + b) / 8 = j / W := by omega
      rw [hq]
      have hdm := Nat.div_add_mod j W
      rw [Nat.mul_comm (j / W) W]
      exact hdm
    · have hshape : (8 * (j / W) + b) * W + j % W =
          j % W + W * (8 * (j / W) + b) := by ring
      rw [hshape, Nat.add_mul_div_left _ _ hW, Nat.div_eq_of_lt hxW,
        Nat.zero_add]
      omega

/-- Witness for C3: in a 16 by 16 target with the single pixel
`(x = 3, y = 10)` lit, bit 2 of byte 19 of the packed buffer is set. -/
theorem packSSD1306_layout_witness :
    Nat.testBit ((packSSD1306 16 16 vals16).getD 19 0) 2 = true :=
  (packSSD1306_layout 16 16 vals16 19 2 (by decide) (by decide) (by decide)).mpr
    (by decide)

/-- C2: the packed buffer length.  The specification claims the length
is always `ceil(W * H / 8)` (the length of the unused `monoPixels`
allocation); the buffer actually returned is allocated as
`new Uint8Array((width * height) / 8)`, whose length truncates to
`floor(W * H / 8)`.  The first conjunct is the general length of the
returned buffer; the remaining conjuncts evaluate the failing input
`W = H = 3`: the returned buffer has 1 byte while the specified ceiling
is 2. -/
theorem processFramePixels_length_bug :
    (∀ (frame : ImageData) (o : ProcessingOptions),
        (processFramePixels frame o).length = o.width * o.height / 8)
    ∧ (processFramePixels blackFrame1x1 opts3x3).length = 1
    ∧ monoPixelsLen 3 3 = 2 := by
  have hgen : ∀ (frame : ImageData) (o : ProcessingOptions),
      (processFramePixels frame o).length = o.width * o.height / 8 := by
    intro frame o
    unfold processFramePixels
    rw [packSSD1306_length]
    rfl
  refine ⟨hgen, ?_, by decide⟩
  rw [hgen]
  decide

/-- C4 is false as stated: for `W = 1`, `H = 9` the pixel `(0, 8)` has
byte index `(8 / 8) * 1 + 0 = 1`, which is not below the allocated
buffer length `floor(9 / 8) = 1`, so the defensive bounds check fires
and the lit pixel is silently dropped (the packed buffer stays all
zero even though pixel `(0, 8)` is lit). -/
theorem pack_bounds_check_reachable :
    ¬ ((8 / 8) * 1 + 0 < (packSSD1306 1 9 vals1x9).length) ∧
      packSSD1306 1 9 vals1x9 = [0] ∧ 128 < vals1x9.getD (8 * 1 + 0) 0 := by
  refine ⟨?_, by decide, by decide⟩
  rw [packSSD1306_length]
  decide

/-- C4 (amended): when the target height is a multiple of 8 the byte
index `(y / 8) * W + x` of every pixel `(x, y)` with `x < W`, `y < H`
is strictly below the allocated packed-buffer length, so the defensive
bounds check never fires. -/
theorem pack_byteIdx_lt_length (W H x y : Nat) (vals : List Nat)
    (hH : H % 8 = 0) (hx : x < W) (hy : y < H) :
    (y / 8) * W + x < (packSSD1306 W H vals).length := by
  rw [packSSD1306_length]
  unfold ssd1306Len
  have h8 : H = 8 * (H / 8) := by omega
  have hlen : W * H / 8 = W * (H / 8) := by
    have hWH : W * H = 8 * (W * (H / 8)) := by
      conv_lhs => rw [h8]
      ring
    rw [hWH, Nat.mul_div_cancel_left _ (by norm_num)]
  rw [hlen]
  have hq : y / 8 < H / 8 := by omega
  have h1 : (y / 8) * W + x < (y / 8 + 1) * W := by
    have : (y / 8 + 1) * W = (y / 8) * W + W := by ring
    omega
  have h2 : (y / 8 + 1) * W ≤ (H / 8) * W :=
    Nat.mul_le_mul_right W (by omega)
  have h3 : (H / 8) * W = W * (H / 8) := by ring
  omega

/-- Witness for the amended C4: in a 16 by 16 target the pixel (3, 10)
has byte index 19, below the buffer length 32. -/
theorem pack_byteIdx_lt_length_witness :
    (16 % 8 = 0 ∧ 3 < 16 ∧ 10 < 16) ∧
      (10 / 8) * 16 + 3 < (packSSD1306 16 16 vals16).length :=
  ⟨by decide,
    pack_byteIdx_lt_length 16 16 3 10 vals16 (by decide) (by decide) (by decide)⟩

/-! ## Helper evaluations for the quantizer -/

theorem fsLoop_inverted_pair : fsLoop 2 1 100 [105, 165] = [255, 0] := by
  rw [fsLoop]
  rw [show List.range (2 * 1) = [0, 1] from by decide]
  simp only [List.foldl_cons, List.foldl_nil]
  norm_num [fsDiffuse, List.getD, List.set]

theorem fsLoop_plain_pair : fsLoop 2 1 100 [150, 90] = [255, 0] := by
  rw [fsLoop]
  rw [show List.range (2 * 1) = [0, 1] from by decide]
  simp only [List.foldl_cons, List.foldl_nil]
  norm_num [fsDiffuse, List.getD, List.set]

/-- C9: invert interacts asymmetrically with the two quantization
modes.  Without dithering, requesting invert leaves the luminance alone
and inverts the quantized value, so the output value is 255 (bit set)
exactly when `gray < threshold`.  With dithering, the luminance is
replaced by `255 - gray` before the Floyd-Steinberg loop and the
quantized bit is not additionally inverted afterwards; the concrete
pair `[150, 90]` at threshold 100 separates the two readings: the
pipeline yields `[255, 0]`, whereas inverting the dithered bits
afterwards would yield `[0, 255]`. -/
theorem quantize_invert_asymmetry :
    (∀ (W H : Nat) (t : ℚ) (gray : List ℚ),
        quantizeVals W H t true false gray =
          gray.map fun g => if g < t then 255 else 0)
    ∧ (∀ (W H : Nat) (t : ℚ) (gray : List ℚ),
        quantizeVals W H t true true gray =
          fsLoop W H t (gray.map fun g => 255 - g))
    ∧ quantizeVals 2 1 100 true true grayPair = [255, 0]
    ∧ (quantizeVals 2 1 100 false true grayPair).map (fun v => 255 - v) = [0, 255]
    ∧ quantizeVals 2 1 100 true true grayPair ≠
        (quantizeVals 2 1 100 false true grayPair).map (fun v => 255 - v) := by
  have h2 : ∀ (W H : Nat) (t : ℚ) (gray : List ℚ),
      quantizeVals W H t true true gray =
        fsLoop W H t (gray.map fun g => 255 - g) := by
    intro W H t gray
    simp [quantizeVals]
  have h3 : quantizeVals 2 1 100 true true grayPair = [255, 0] := by
    rw [h2]
    rw [show (grayPair.map fun g => 255 - g) = [105, 165] from by
      norm_num [grayPair]]
    exact fsLoop_inverted_pair
  have h4 : (quantizeVals 2 1 100 false true grayPair).map (fun v => 255 - v) =
      [0, 255] := by
    rw [show quantizeVals 2 1 100 false true grayPair = fsLoop 2 1 100 grayPair from by
      simp [quantizeVals]]
    rw [show grayPair = [(150 : ℚ), 90] from rfl]
    rw [fsLoop_plain_pair]
    decide
  refine ⟨?_, h2, h3, h4, ?_⟩
  · intro W H t gray
    simp only [quantizeVals, Bool.false_eq_true, if_false, thresholdVals]
    apply List.map_congr_left
    intro g _
    by_cases h : g < t
    · simp [h]
    · simp [h]
  · rw [h3, h4]
    decide

/-! ## Helper lemmas for the resampler -/

theorem rowcol_div (W y x : Nat) (hx : x < W) : (y * W + x) / W = y := by
  have h : y * W + x = x + W * y := by ring
  rw [h, Nat.add_mul_div_left _ _ (by omega), Nat.div_eq_of_lt hx]
  omega

theorem rowcol_mod (W y x : Nat) (hx : x < W) : (y * W + x) % W = x := by
  have h : y * W + x = x + W * y := by ring
  rw [h, Nat.add_mul_mod_self_left, Nat.mod_eq_of_lt hx]

theorem rowcol_lt (W H y x : Nat) (hx : x < W) (hy : y < H) : y * W + x < W * H := by
  have h1 : y * W + x < (y + 1) * W := by
    have : (y + 1) * W = y * W + W := by ring
    omega
  have h2 : (y + 1) * W ≤ H * W := Nat.mul_le_mul_right W (by omega)
  have h3 : H * W = W * H := by ring
  omega

theorem flatMap_four_length (g : Nat → List Nat) (h4 : ∀ i, (g i).length = 4) :
    ∀ (l : List Nat), (l.flatMap g).length = 4 * l.length := by
  intro l
  induction l with
  | nil => rfl
  | cons a l ih =>
    rw [List.flatMap_cons, List.length_append, ih, h4, List.length_cons]
    ring

theorem range_flatMap_getD (g : Nat → List Nat) (h4 : ∀ i, (g i).length = 4) :
    ∀ (n q r : Nat), q < n → r < 4 →
      ((List.range n).flatMap g).getD (4 * q + r) 0 = (g q).getD r 0 := by
  intro n
  induction n with
  | zero => intro q r hq _; omega
  | succ n ih =>
    intro q r hq hr
    rw [List.range_succ, List.flatMap_append]
    have hlen : ((List.range n).flatMap g).length = 4 * n := by
      rw [flatMap_four_length g h4, List.length_range]
    rcases Nat.lt_or_ge q n with h | h
    · rw [List.getD_eq_getElem?_getD,
        List.getElem?_append_left (by rw [hlen]; omega),
        ← List.getD_eq_getElem?_getD]
      exact ih q r h hr
    · have hq_eq : q = n := by omega
      subst hq_eq
      rw [List.getD_eq_getElem?_getD,
        List.getElem?_append_right (by rw [hlen]; omega)]
      rw [hlen]
      have : 4 * q + r - 4 * q = r := by omega
      rw [this]
      rw [List.flatMap_cons, List.flatMap_nil, List.append_nil,
        ← List.getD_eq_getElem?_getD]

/-- C8: the resampler produces a bitmap of exactly the requested
dimensions, with a flat RGBA list of length `4 * (W * H)`, and each
target pixel `(x, y)` carries exactly the per-pixel nearest-neighbor
sample `samplePixel`: the source texel at
`(floor((x - offsetX) / scaleX), floor((y - offsetY) / scaleY))` when
that coordinate is in source bounds and opaque black `(0,0,0,255)`
otherwise, the scales and offsets coming from `fitParams` (stretch:
independent axes, zero offset; cover: maximum axis ratio, centered;
contain: minimum axis ratio, centered). -/
theorem resample_spec (src : ImageData) (W H : Nat) (fit : Fit) :
    (resample src W H fit).width = W ∧
    (resample src W H fit).height = H ∧
    (resample src W H fit).data.length = 4 * (W * H) ∧
    ∀ x y, x < W → y < H →
      pixelAt (resample src W H fit) x y = samplePixel src W H fit x y := by
  have h4 : ∀ i, ((fun i =>
      let q := samplePixel src W H fit (i % W) (i / W)
      [q.1, q.2.1, q.2.2.1, q.2.2.2]) i).length = 4 := by
    intro i
    rfl
  refine ⟨rfl, rfl, ?_, ?_⟩
  · show ((List.range (W * H)).flatMap _).length = 4 * (W * H)
    rw [flatMap_four_length _ h4, List.length_range]
  · intro x y hx hy
    have hq : y * W + x < W * H := rowcol_lt W H y x hx hy
    have hc : ∀ r, r < 4 →
        (resample src W H fit).data.getD (4 * (y * W + x) + r) 0 =
          ([(samplePixel src W H fit x y).1,
            (samplePixel src W H fit x y).2.1,
            (samplePixel src W H fit x y).2.2.1,
            (samplePixel src W H fit x y).2.2.2]).getD r 0 := by
      intro r hr
      show ((List.range (W * H)).flatMap (fun i =>
          let q := samplePixel src W H fit (i % W) (i / W)
          [q.1, q.2.1, q.2.2.1, q.2.2.2])).getD (4 * (y * W + x) + r) 0 = _
      rw [range_flatMap_getD _ h4 (W * H) (y * W + x) r hq hr]
      rw [rowcol_mod W y x hx, rowcol_div W y x hx]
    have f0 : (resample src W H fit).data.getD ((y * W + x) * 4) 0 =
        (samplePixel src W H fit x y).1 := by
      rw [show (y * W + x) * 4 = 4 * (y * W + x) + 0 from by ring]
      rw [hc 0 (by omega)]
      rfl
    have f1 : (resample src W H fit).data.getD ((y * W + x) * 4 + 1) 0 =
        (samplePixel src W H fit x y).2.1 := by
      rw [show (y * W + x) * 4 + 1 = 4 * (y * W + x) + 1 from by ring]
      rw [hc 1 (by omega)]
      rfl
    have f2 : (resample src W H fit).data.getD ((y * W + x) * 4 + 2) 0 =
        (samplePixel src W H fit x y).2.2.1 := by
      rw [show (y * W + x) * 4 + 2 = 4 * (y * W + x) + 2 from by ring]
      rw [hc 2 (by omega)]
      rfl
    have f3 : (resample src W H fit).data.getD ((y * W + x) * 4 + 3) 0 =
        (samplePixel src W H fit x y).2.2.2 := by
      rw [show (y * W + x) * 4 + 3 = 4 * (y * W + x) + 3 from by ring]
      rw [hc 3 (by omega)]
      rfl
    show ((resample src W H fit).data.getD ((y * W + x) * 4) 0,
        (resample src W H fit).data.getD ((y * W + x) * 4 + 1) 0,
        (resample src W H fit).data.getD ((y * W + x) * 4 + 2) 0,
        (resample src W H fit).data.getD ((y * W + x) * 4 + 3) 0) =
      samplePixel src W H fit x y
    rw [f0, f1, f2, f3]

/-! ## Helper lemmas for the compositor -/

theorem sourceOver_opaque (s d : RGBA) (h : s.a = 255) : sourceOver s d = s := by
  obtain ⟨r, g, b, a⟩ := s
  have ha : a = 255 := h
  subst ha
  unfold sourceOver
  norm_num
  decide

/-- C5 (amended): inside the patch rectangle, a patch pixel with full
alpha overwrites the destination: the blit is source-over compositing,
which coincides with replacement exactly for opaque patch pixels. -/
theorem drawImagePatch_opaque_overwrites (c : Canvas) (rc : Rect)
    (p : Nat → Nat → RGBA) (x y : Nat)
    (hin : rc.left ≤ x ∧ x < rc.left + rc.width ∧ rc.top ≤ y ∧ y < rc.top + rc.height)
    (hop : (p (x - rc.left) (y - rc.top)).a = 255) :
    drawImagePatch c rc p x y = p (x - rc.left) (y - rc.top) := by
  unfold drawImagePatch
  rw [if_pos hin]
  exact sourceOver_opaque _ _ hop

/-- Witness for the amended C5: an opaque red patch pixel replaces the
blank canvas pixel under it. -/
theorem drawImagePatch_opaque_overwrites_witness :
    drawImagePatch initialCanvas rect1x1 (fun _ _ => redOpaque) 0 0 =
      (fun _ _ => redOpaque) (0 - rect1x1.left) (0 - rect1x1.top) :=
  drawImagePatch_opaque_overwrites initialCanvas rect1x1 (fun _ _ => redOpaque) 0 0
    (by decide) (by decide)

/-- C5 is false as stated: blitting uses source-over compositing, not
unconditional overwrite.  With the canvas holding opaque red (drawn by
frame 1) and frame 2 blitting a fully transparent patch pixel
(alpha 0), the pixel after the blit is still red, not the patch
pixel. -/
theorem claim5_counterexample :
    (extractComposedFrames [frameRed, frameClear]).getD 1 initialCanvas 0 0 =
      redOpaque ∧ redOpaque ≠ clearTexel := by
  constructor
  · show (extractComposedFrames [frameRed, frameClear]).getD 1 initialCanvas 0 0 =
      redOpaque
    have h1 : sourceOver redOpaque ⟨0, 0, 0, 0⟩ = redOpaque :=
      sourceOver_opaque _ _ rfl
    have h2 : sourceOver clearTexel redOpaque = redOpaque := by
      unfold sourceOver clearTexel redOpaque
      norm_num
      decide
    simp only [extractComposedFrames, List.foldl_cons, List.foldl_nil, stepFrame,
      frameRed, frameClear]
    norm_num
    simp only [drawImagePatch, rect1x1, initialCanvas]
    norm_num [h1, h2]
  · decide

theorem composeFold_acc :
    ∀ (rest : List RawFrame) (c : Canvas) (acc : List Canvas),
      (rest.foldl
        (fun st f =>
          let s := stepFrame st.1 f
          (s.1, st.2 ++ [s.2])) (c, acc)).2 =
        acc ++ (rest.foldl
          (fun st f =>
            let s := stepFrame st.1 f
            (s.1, st.2 ++ [s.2])) (c, ([] : List Canvas))).2 := by
  intro rest
  induction rest with
  | nil => intro c acc; simp
  | cons f fs ih =>
    intro c acc
    rw [List.foldl_cons, List.foldl_cons]
    rw [ih ((stepFrame c f).1) (acc ++ [(stepFrame c f).2])]
    rw [ih ((stepFrame c f).1) ([] ++ [(stepFrame c f).2])]
    simp

theorem stepFrame_restorePrevious (c : Canvas) (f : RawFrame)
    (h : f.disposalType = 3) :
    stepFrame c f = (c, drawImagePatch c f.dims f.patch) := by
  unfold stepFrame
  rw [h]
  norm_num

/-- C6 is false as stated: a first frame with disposal RestorePrevious
does trigger a restore.  The snapshot is taken before the frame is
drawn, so the canvas handed to frame 2 is the initial blank canvas and
frame 1's drawn patch is discarded: with frame 1 drawing opaque red at
(0, 0) under disposal 3 and frame 2 blitting a transparent pixel, frame
2's visible pixel is fully transparent black, although the drawn patch
of frame 1 had made it red. -/
theorem claim6_counterexample :
    (extractComposedFrames [frameRedRestorePrev, frameClear]).getD 1
        initialCanvas 0 0 = ⟨0, 0, 0, 0⟩ ∧
      drawImagePatch initialCanvas rect1x1 (fun _ _ => redOpaque) 0 0 =
        redOpaque ∧
      (⟨0, 0, 0, 0⟩ : RGBA) ≠ redOpaque := by
  refine ⟨?_, ?_, by decide⟩
  · have h2 : sourceOver clearTexel ⟨0, 0, 0, 0⟩ = ⟨0, 0, 0, 0⟩ := by
      unfold sourceOver clearTexel
      norm_num
    simp only [extractComposedFrames, List.foldl_cons, List.foldl_nil, stepFrame,
      frameRedRestorePrev, frameClear]
    norm_num
    simp only [drawImagePatch, rect1x1, initialCanvas]
    norm_num [h2]
  · have h1 : sourceOver redOpaque ⟨0, 0, 0, 0⟩ = redOpaque :=
      sourceOver_opaque _ _ rfl
    simp only [drawImagePatch, rect1x1, initialCanvas]
    norm_num [h1]

/-- C6 (amended): a first frame with disposal RestorePrevious restores
the canvas to the state snapshotted before the frame was drawn, which
is the initial blank canvas; the remaining frames are therefore
composed as if frame 1 had never been drawn, and the canvas handed to
frame 2 does not contain frame 1's patch. -/
theorem restorePrevious_first_frame (f : RawFrame) (rest : List RawFrame)
    (h : f.disposalType = 3) :
    extractComposedFrames (f :: rest) =
      drawImagePatch initialCanvas f.dims f.patch :: extractComposedFrames rest := by
  unfold extractComposedFrames
  rw [List.foldl_cons]
  simp only [stepFrame_restorePrevious initialCanvas f h, List.nil_append]
  rw [composeFold_acc rest initialCanvas [drawImagePatch initialCanvas f.dims f.patch]]
  simp

/-- Witness for the amended C6: a single disposal-3 frame yields exactly
its drawn snapshot and the empty remainder. -/
theorem restorePrevious_first_frame_witness :
    extractComposedFrames [frameRedRestorePrev] =
      drawImagePatch initialCanvas frameRedRestorePrev.dims
        frameRedRestorePrev.patch :: extractComposedFrames [] :=
  restorePrevious_first_frame frameRedRestorePrev [] rfl

/-- Witness for C8: in a 2 by 2 stretch resample of the 1 by 1 black
source, pixel (0, 0) equals its nearest-neighbor sample. -/
theorem resample_spec_witness :
    (0 < 2 ∧ 0 < 2) ∧
      pixelAt (resample blackFrame1x1 2 2 Fit.stretch) 0 0 =
        samplePixel blackFrame1x1 2 2 Fit.stretch 0 0 :=
  ⟨by decide,
    (resample_spec blackFrame1x1 2 2 Fit.stretch).2.2.2 0 0 (by decide) (by decide)⟩

end Gif2Esp
